import Mathlib

/-!
Verification of the Scopus-style query-to-JSON converter.

The repository contains two near-duplicate Go programs implementing the same
pipeline: `tokenize` (regex-driven lexer with paren auto-balancing and
implicit-AND insertion), `parseTokens` (stack-based structural parser) and
`cleanupQuery` (tree normalizer), glued by `processQuery`.

This file gives a shallow embedding of both copies:
* the copy in `src/unnamed/part_000` (the one the spec's component design
  matches: its parser saves the attach operator across parentheses and its
  normalizer collapses singleton wrappers and returns nil for empty trees);
  its functions are embedded with suffix `P` where both copies exist;
* the copy in `src/main.go` (suffix `M`): its `cleanupQuery` never collapses
  singletons and never returns nil for a non-nil input, and its `parseTokens`
  neither saves nor restores the insertion operator across parentheses.

Strings are modelled as lists of unicode characters.  Go slices of
`ParsedQuery` are modelled by the list type `QList`, declared mutually with
`Query` so that all recursions stay structural (hence kernel-computable).
In `src/main.go` the buckets are `[]interface{}`, but every value the
program ever stores in them is a `ParsedQuery`, so the typed model is exact.
-/

abbrev Chars := List Char

/-- Go struct `Field { Field, Value string }`. -/
structure Fld where
  fname : Chars
  fval : Chars
deriving DecidableEq, Repr

mutual
/-- Go struct `ParsedQuery { AND, OR, AND_NOT []ParsedQuery; Field *Field }`.
`QList` models the Go slice (nil and empty slice are identified: the code
only ever distinguishes them through `len`). -/
inductive Query : Type where
  | mk (A : QList) (O : QList) (N : QList) (field : Option Fld) : Query
deriving DecidableEq, Repr
inductive QList : Type where
  | nil : QList
  | cons (q : Query) (qs : QList) : QList
deriving DecidableEq, Repr
end

def emptyQ : Query := .mk .nil .nil .nil none

def Query.A : Query → QList
  | .mk a _ _ _ => a

def Query.O : Query → QList
  | .mk _ o _ _ => o

def Query.N : Query → QList
  | .mk _ _ n _ => n

def Query.fld : Query → Option Fld
  | .mk _ _ _ f => f

mutual
/-- Number of `Query.mk` nodes; used as fuel for the non-structural
recursions of the Go normalizers. -/
def qsize : Query → Nat
  | .mk a o n _ => 1 + qlsize a + qlsize o + qlsize n
def qlsize : QList → Nat
  | .nil => 0
  | .cons q qs => qsize q + qlsize qs
end

/-- Go `append(slice, x)`. -/
def qappend : QList → Query → QList
  | .nil, c => .cons c .nil
  | .cons q qs, c => .cons q (qappend qs c)

/-- `filterMap` over `QList`; models the clean-and-keep-non-empty loops. -/
def qfilterMap (f : Query → Option Query) : QList → QList
  | .nil => .nil
  | .cons q qs =>
    match f q with
    | some c => .cons c (qfilterMap f qs)
    | none => qfilterMap f qs

/-- Go `isEmptyQuery` applied to a non-nil `*ParsedQuery` (both copies agree:
no field pointer and all three buckets of length 0). -/
def isEmptyQ : Query → Bool
  | .mk a o n f => f.isNone && (a = QList.nil) && (o = QList.nil) && (n = QList.nil)

/-- Go `isEmptyQuery` on the possibly-nil pointer. -/
def isEmptyO : Option Query → Bool
  | none => true
  | some q => isEmptyQ q

/-! ## The normalizer of `src/unnamed/part_000`

```go
func cleanupQuery(query *ParsedQuery) *ParsedQuery {
    if query == nil { return nil }
    cleaned := &ParsedQuery{}
    for AND, OR, AND_NOT buckets: recursively clean children, keep non-empty
    copy Field
    if isEmptyQuery(cleaned) { return nil }
    if exactly the AND bucket has 1 element, no OR/AND_NOT, no Field
        { return cleanupQuery(&cleaned.AND[0]) }
    ... same for OR, then AND_NOT ...
    return cleaned
}
```

The recursion is not structural (the singleton-collapse call re-cleans an
already-cleaned child), so it is embedded with explicit fuel; `qsize` fuel is
proved sufficient below (`cleanupF_fuel`), which yields the natural unfolding
equation `cleanupQ_mk`. -/

/-- The body of `cleanupQuery` with the recursive occurrences abstracted:
clean the three buckets, drop the node if empty, collapse a singleton
wrapper (re-cleaning the sole child, exactly as the Go code does), else
keep the cleaned node. -/
def cleanupCore (rec : Query → Option Query) : Query → Option Query
  | .mk A O N F =>
    let a := qfilterMap rec A
    let o := qfilterMap rec O
    let m := qfilterMap rec N
    if isEmptyQ (.mk a o m F) then none
    else
      match a, o, m, F with
      | .cons x .nil, .nil, .nil, none => rec x
      | .nil, .cons x .nil, .nil, none => rec x
      | .nil, .nil, .cons x .nil, none => rec x
      | _, _, _, _ => some (.mk a o m F)

def cleanupF : Nat → Query → Option Query
  | 0, _ => none
  | Nat.succ n, q => cleanupCore (cleanupF n) q

/-- `cleanupQuery` of `src/unnamed/part_000` on a non-nil argument
(`none` result models the Go `nil` return). -/
def cleanupQ (q : Query) : Option Query := cleanupF (qsize q) q

/-- `cleanupQuery` of `src/unnamed/part_000` on a possibly-nil argument:
this is the spec's `normalize : optional QueryNode → optional QueryNode`. -/
def cleanupO : Option Query → Option Query
  | none => none
  | some q => cleanupQ q

/-! ## The normalizer of `src/main.go`

It cleans the three buckets recursively, dropping children that clean to
empty, but performs no singleton collapse, and returns its (possibly empty)
argument rather than nil.  Again fuel-embedded; `qsize` fuel never runs out
because the recursion is only along children. -/

def cleanLF (f : Query → Query) : QList → QList
  | .nil => .nil
  | .cons q qs =>
    let c := f q
    if isEmptyQ c then cleanLF f qs else .cons c (cleanLF f qs)

def cleanupMF : Nat → Query → Query
  | 0, q => q
  | Nat.succ n, .mk A O N F =>
    .mk (cleanLF (cleanupMF n) A) (cleanLF (cleanupMF n) O) (cleanLF (cleanupMF n) N) F

/-- `cleanupQuery` of `src/main.go` on a non-nil argument. -/
def cleanupM (q : Query) : Query := cleanupMF (qsize q) q

/-! ## Tokenizer (identical in both copies except for the inner field regex)

Preprocessing:
```go
openCount := strings.Count(query, "(") ; closeCount := strings.Count(query, ")")
if openCount > closeCount { query += strings.Repeat(")", openCount-closeCount) }
query = strings.ReplaceAll(query, "( ", "(")
query = strings.ReplaceAll(query, " )", ")")
query = strings.ReplaceAll(query, " AND NOT ", " AND_NOT ")
query = strings.ReplaceAll(query, " AND ", " AND ")
query = strings.ReplaceAll(query, " OR ", " OR ")
```
Scanning: repeated leftmost-first matching of
`(TITLE-ABS-KEY|TITLE-ABS|TITLE|AUTHKEY)\s*\("([^"]+?)"\)|OR|AND_NOT|AND|\(|\)|"([^"]+?)"`
(`src/main.go` uses greedy `[^"]+`, which matches the same text because the
character class excludes the closing quote). -/

/-- `strings.ReplaceAll` with a non-empty pattern, fuel-embedded (fuel equal
to the input length is always sufficient since every step consumes at least
one character). -/
def replF (pat rep : Chars) : Nat → Chars → Chars
  | 0, cs => cs
  | Nat.succ n, cs =>
    match cs with
    | [] => []
    | c :: cs' =>
      if pat.isPrefixOf cs then rep ++ replF pat rep n (cs.drop pat.length)
      else c :: replF pat rep n cs'

def replAll (p : Char) (ps rep cs : Chars) : Chars := replF (p :: ps) rep cs.length cs

/-- Append the deficit of `)` characters. -/
def balanceParens (cs : Chars) : Chars :=
  if cs.count ')' < cs.count '(' then cs ++ List.replicate (cs.count '(' - cs.count ')') ')'
  else cs

def preprocess (cs : Chars) : Chars :=
  replAll ' ' " OR ".data.tail " OR ".data
    (replAll ' ' " AND ".data.tail " AND ".data
      (replAll ' ' " AND NOT ".data.tail " AND_NOT ".data
        (replAll ' ' " )".data.tail ")".data
          (replAll '(' "( ".data.tail "(".data (balanceParens cs)))))

/-- The four field-function names, in the regex's alternation order. -/
inductive FName : Type where
  | fTAK | fTA | fT | fAK
deriving DecidableEq, Repr

def fnChars : FName → Chars
  | .fTAK => "TITLE-ABS-KEY".data
  | .fTA => "TITLE-ABS".data
  | .fT => "TITLE".data
  | .fAK => "AUTHKEY".data

/-- RE2 `\s` is `[\t\n\f\r ]`. -/
def isReSpace (c : Char) : Bool :=
  c = ' ' || c = '\t' || c = '\n' || c = '\x0c' || c = '\r'

/-- One successful match of the scanning regex, by alternative. -/
inductive RawMatch : Type where
  | rfield (fn : FName) (v : Chars)
  | rOR
  | rANDNOT
  | rAND
  | rOpen
  | rClose
  | rquoted (v : Chars)
deriving DecidableEq, Repr

/-- Try `FIELDNAME\s*\("([^"]+?)"\)` for one field name at the head of `cs`. -/
def pFieldFn (fnc cs : Chars) : Option (Chars × Chars) :=
  if fnc.isPrefixOf cs then
    match (cs.drop fnc.length).dropWhile isReSpace with
    | '(' :: '"' :: cs3 =>
      match cs3.takeWhile (· ≠ '"'), cs3.drop (cs3.takeWhile (· ≠ '"')).length with
      | c0 :: v1, '"' :: ')' :: rest => some (c0 :: v1, rest)
      | _, _ => none
    | _ => none
  else none

/-- The field-function alternative, trying the four names in alternation
order (so `TITLE-ABS-KEY` is preferred over its prefixes). -/
def pField (cs : Chars) : Option (FName × Chars × Chars) :=
  match pFieldFn (fnChars .fTAK) cs with
  | some (v, r) => some (.fTAK, v, r)
  | none =>
    match pFieldFn (fnChars .fTA) cs with
    | some (v, r) => some (.fTA, v, r)
    | none =>
      match pFieldFn (fnChars .fT) cs with
      | some (v, r) => some (.fT, v, r)
      | none =>
        match pFieldFn (fnChars .fAK) cs with
        | some (v, r) => some (.fAK, v, r)
        | none => none

/-- Try every alternative of the scanning regex at the head of `cs`,
in the regex's preference order; returns the match and the rest. -/
def tryAlts (cs : Chars) : Option (RawMatch × Chars) :=
  match pField cs with
  | some (fn, v, rest) => some (.rfield fn v, rest)
  | none =>
    if "OR".data.isPrefixOf cs then some (.rOR, cs.drop 2)
    else if "AND_NOT".data.isPrefixOf cs then some (.rANDNOT, cs.drop 7)
    else if "AND".data.isPrefixOf cs then some (.rAND, cs.drop 3)
    else
      match cs with
      | '(' :: rest => some (.rOpen, rest)
      | ')' :: rest => some (.rClose, rest)
      | '"' :: rest =>
        match rest.takeWhile (· ≠ '"'), rest.drop (rest.takeWhile (· ≠ '"')).length with
        | c0 :: v1, '"' :: rest2 => some (.rquoted (c0 :: v1), rest2)
        | _, _ => none
      | _ => none

/-- Leftmost match: the skipped prefix, the match, and the remaining input. -/
def findMatch : Chars → Option (Chars × RawMatch × Chars)
  | [] =>
    match tryAlts [] with
    | some (rm, rest) => some ([], rm, rest)
    | none => none
  | c :: cs' =>
    match tryAlts (c :: cs') with
    | some (rm, rest) => some ([], rm, rest)
    | none =>
      match findMatch cs' with
      | some (g, rm, rest) => some (c :: g, rm, rest)
      | none => none

/-- All matches in order, each paired with the gap of characters skipped
immediately before it (Go `FindAllStringSubmatchIndex`).  Fuel-embedded:
each match consumes at least one character, so `cs.length` fuel suffices. -/
def scanFromF : Nat → Chars → List (Chars × RawMatch)
  | 0, _ => []
  | Nat.succ n, cs =>
    match findMatch cs with
    | none => []
    | some (g, rm, rest) => (g, rm) :: scanFromF n rest

def scanFrom (cs : Chars) : List (Chars × RawMatch) := scanFromF cs.length cs

/-- Full match of `((?:[^"\\]|\\.)+)` — the value capture of the inner field
regex of `src/unnamed/part_000` (`.` does not match a newline).  A quote-free
value fails exactly on a backslash that is last or precedes a newline. -/
def pOkAux : Chars → Bool
  | [] => true
  | c :: rest =>
    if c = '\\' then
      match rest with
      | [] => false
      | d :: rest2 => if d = '\n' then false else pOkAux rest2
    else if c = '"' then false
    else pOkAux rest

def pOk (v : Chars) : Bool := !v.isEmpty && pOkAux v

/-- The value test of the inner field regex of `src/main.go`
(`([^"]+)` — always succeeds on the outer capture, which is non-empty and
quote-free). -/
def mainOk (_ : Chars) : Bool := true

/-- Go token kinds; `TokenField` is the zero value, whose guard
`token.Type != 0 || token.Value != ""` drops empty tokens. -/
inductive TokType : Type where
  | tField | tOR | tAND | tANDNOT | tOpen | tClose
deriving DecidableEq, Repr

structure Token where
  type : TokType
  value : Chars
deriving DecidableEq, Repr

def isOpType (t : TokType) : Bool :=
  t = TokType.tOR || t = TokType.tAND || t = TokType.tANDNOT

/-- Token construction for one match, parameterized by the file-specific
inner-regex value test `fOk` (`pOk` for `src/unnamed/part_000`, `mainOk` for
`src/main.go`); `none` models the dropped zero `Token{}`.  A bare-quoted
match whose value contains `(` enters the field-call branch of the `switch`,
where the inner regex never matches (the value is quote-free), so it is
dropped in both copies. -/
def mkToken (fOk : Chars → Bool) : RawMatch → Option Token
  | .rOR => some ⟨.tOR, "OR".data⟩
  | .rAND => some ⟨.tAND, "AND".data⟩
  | .rANDNOT => some ⟨.tANDNOT, "AND_NOT".data⟩
  | .rOpen => some ⟨.tOpen, "(".data⟩
  | .rClose => some ⟨.tClose, ")".data⟩
  | .rfield fn v => if fOk v then some ⟨.tField, fnChars fn ++ ':' :: v⟩ else none
  | .rquoted v =>
    if v.contains '(' then none
    else some ⟨.tField, "ANY".data ++ ':' :: v⟩

/-- `unicode.IsSpace` (Go `strings.TrimSpace` trims White_Space runes):
tab, newline, vertical tab, form feed, carriage return, space, next line,
no-break space, ogham space mark, the en-quad..hair-space range, line and
paragraph separators, narrow no-break space, medium mathematical space,
ideographic space. -/
def isGoSpace (c : Char) : Bool :=
  let n := c.toNat
  n = 9 || n = 10 || n = 11 || n = 12 || n = 13 || n = 32 ||
  n = 0x85 || n = 0xa0 || n = 0x1680 || (0x2000 ≤ n && n ≤ 0x200a) ||
  n = 0x2028 || n = 0x2029 || n = 0x202f || n = 0x205f || n = 0x3000

/-- `TrimSpace(gap) == ""`. -/
def allSpace (cs : Chars) : Bool := cs.all isGoSpace

/-- The token-building loop over the match list, accumulating tokens in
reverse.  After appending a `Field` token, if another match follows, the gap
before it is pure whitespace, at least two tokens exist, and the token before
the field is not an operator, a synthetic `AND` token is inserted. -/
def buildToks (fOk : Chars → Bool) : List (Chars × RawMatch) → List Token → List Token
  | [], acc => acc.reverse
  | (_, rm) :: rest, acc =>
    match mkToken fOk rm with
    | none => buildToks fOk rest acc
    | some tk =>
      let acc1 := tk :: acc
      let acc2 :=
        match rest, acc with
        | (g2, _) :: _, prev :: _ =>
          if tk.type = TokType.tField && allSpace g2 && !isOpType prev.type then
            Token.mk .tAND "AND".data :: acc1
          else acc1
        | _, _ => acc1
      buildToks fOk rest acc2

def tokenizeWith (fOk : Chars → Bool) (s : String) : List Token :=
  buildToks fOk (scanFrom (preprocess s.data)) []

/-- `tokenize` of `src/unnamed/part_000`. -/
def tokenizeP (s : String) : List Token := tokenizeWith pOk s

/-- `tokenize` of `src/main.go`. -/
def tokenizeM (s : String) : List Token := tokenizeWith mainOk s

/-! ## Structural parsers

`src/unnamed/part_000`:
```go
type StackItem struct { query *ParsedQuery; operator int }
var stack []StackItem
current := StackItem{query: &ParsedQuery{}, operator: TokenAND}
Field    -> split value on ":"; exactly 2 parts or skip; append leaf to the
            current group's bucket selected by current.operator
operator -> current.operator = token.Type
OpenParen  -> push current; current = {empty group, TokenAND}
CloseParen -> if stack empty, skip; else clean current group, if non-empty
              append it into the parent's bucket selected by the PARENT's
              saved operator; pop: current = parent (operator restored)
end -> cleanupQuery(current.query)
```

`src/main.go` keeps a nil-able `currentGroup`, a bare `[]*ParsedQuery` stack
and ONE mutable `currentOperator` that is neither saved on `(` nor restored
on `)`. -/

/-- The three values the Go `operator` variables take
(`TokenAND`, `TokenOR`, `TokenANDNOT`). -/
inductive OpK : Type where
  | kAND | kOR | kNOT
deriving DecidableEq, Repr

/-- `strings.Split` with a one-character separator. -/
def splitChar (sep : Char) : Chars → List Chars
  | [] => [[]]
  | c :: rest =>
    if c = sep then [] :: splitChar sep rest
    else
      match splitChar sep rest with
      | [] => [[c]]
      | p :: ps => (c :: p) :: ps

/-- Append one child into the bucket selected by an operator value. -/
def attach (q : Query) (k : OpK) (c : Query) : Query :=
  match q, k with
  | .mk a o n f, .kAND => .mk (qappend a c) o n f
  | .mk a o n f, .kOR => .mk a (qappend o c) n f
  | .mk a o n f, .kNOT => .mk a o (qappend n c) f

/-- Parser state of `src/unnamed/part_000`: the stack of `StackItem`s and the
current `StackItem` (group plus insertion operator). -/
structure PSt where
  stack : List (Query × OpK)
  cur : Query
  op : OpK
deriving DecidableEq, Repr

/-- One iteration of the token loop of `parseTokens` in
`src/unnamed/part_000`. -/
def stepP (st : PSt) (t : Token) : PSt :=
  match t.type with
  | .tField =>
    match splitChar ':' t.value with
    | [f, v] => { st with cur := attach st.cur st.op (Query.mk .nil .nil .nil (some ⟨f, v⟩)) }
    | _ => st
  | .tOR => { st with op := .kOR }
  | .tAND => { st with op := .kAND }
  | .tANDNOT => { st with op := .kNOT }
  | .tOpen => ⟨(st.cur, st.op) :: st.stack, emptyQ, .kAND⟩
  | .tClose =>
    match st.stack with
    | [] => st
    | (pq, po) :: rest =>
      match cleanupQ st.cur with
      | none => ⟨rest, pq, po⟩
      | some c => if isEmptyQ c then ⟨rest, pq, po⟩ else ⟨rest, attach pq po c, po⟩

def pInit : PSt := ⟨[], emptyQ, .kAND⟩

/-- `parseTokens` of `src/unnamed/part_000`. -/
def parseTokensP (ts : List Token) : Option Query :=
  cleanupQ (ts.foldl stepP pInit).cur

/-- Parser state of `src/main.go`: plain group stack, nil-able current group,
and the single un-saved operator variable. -/
structure MSt where
  stack : List Query
  cur : Option Query
  op : OpK
deriving DecidableEq, Repr

/-- One iteration of the token loop of `parseTokens` in `src/main.go`. -/
def stepM (st : MSt) (t : Token) : MSt :=
  match t.type with
  | .tField =>
    match splitChar ':' t.value with
    | [f, v] =>
      let g := st.cur.getD emptyQ
      { st with cur := some (attach g st.op (Query.mk .nil .nil .nil (some ⟨f, v⟩))) }
    | _ => st
  | .tOR => { st with op := .kOR }
  | .tAND => { st with op := .kAND }
  | .tANDNOT => { st with op := .kNOT }
  | .tOpen =>
    match st.cur with
    | none => { st with cur := some emptyQ }
    | some g => ⟨g :: st.stack, some emptyQ, st.op⟩
  | .tClose =>
    match st.stack, st.cur with
    | p :: rest, some g =>
      let cleaned := cleanupM g
      ⟨rest, some (if isEmptyQ cleaned then p else attach p st.op cleaned), st.op⟩
    | _, _ => st

def mInit : MSt := ⟨[], none, .kAND⟩

/-- `parseTokens` of `src/main.go` (`nil` in, `nil` out for the final
`cleanupQuery`). -/
def parseTokensM (ts : List Token) : Option Query :=
  (ts.foldl stepM mInit).cur.map cleanupM

/-- Result of Go's `(*ParsedQuery, error)` pair: exactly one of the two. -/
inductive QResult : Type where
  | ok (q : Query)
  | err (msg : String)
deriving DecidableEq, Repr

def emptyErr : String := "query parsed to empty structure"

/-- The shared tail of both `processQuery` bodies:
`if isEmptyQuery(parsedQuery) { return nil, error } ; return parsedQuery, nil`. -/
def procResult (r : Option Query) : QResult :=
  match r with
  | none => .err emptyErr
  | some q => if isEmptyQ q then .err emptyErr else .ok q

/-- `processQuery` of `src/unnamed/part_000`. -/
def processQueryP (s : String) : QResult :=
  procResult (parseTokensP (tokenizeP s))

/-- `processQuery` of `src/main.go`. -/
def processQueryM (s : String) : QResult :=
  procResult (parseTokensM (tokenizeM s))

/-! ## Definitions supporting the claims -/

/-- Leaf node `{field, value}`. -/
def qleaf (f v : String) : Query := .mk .nil .nil .nil (some ⟨f.data, v.data⟩)

/-- Singleton bucket. -/
def qone (q : Query) : QList := .cons q .nil

/-- A node with exactly one non-empty bucket, that bucket of size 1, the
other two buckets empty and no leaf field — the shape the singleton-collapse
rule of the normalizer eliminates. -/
def isSingleShape : Query → Bool
  | .mk (.cons _ .nil) .nil .nil none => true
  | .mk .nil (.cons _ .nil) .nil none => true
  | .mk .nil .nil (.cons _ .nil) none => true
  | _ => false

mutual
/-- No node of the tree has the collapsible singleton-wrapper shape. -/
def noSingle : Query → Bool
  | .mk a o n f =>
    !isSingleShape (.mk a o n f) && noSingleL a && noSingleL o && noSingleL n
def noSingleL : QList → Bool
  | .nil => true
  | .cons q qs => noSingle q && noSingleL qs
end

def c1line : String := "(\"deep learning\" OR \"neural network\") AND TITLE(\"survey\")"

def c5line : String := "TITLE-ABS-KEY(\"battery\") AND NOT AUTHKEY(\"recycling\")"

def c5tree : Query :=
  .mk (qone (qleaf "TITLE-ABS-KEY" "battery")) .nil (qone (qleaf "AUTHKEY" "recycling")) none

/-! ## Helper lemmas -/

theorem splitChar_ne_nil (sep : Char) (l : Chars) : splitChar sep l ≠ [] := by
  induction l with
  | nil => simp [splitChar]
  | cons c rest ih =>
    simp only [splitChar]
    split
    · simp
    · cases h : splitChar sep rest with
      | nil => exact absurd h ih
      | cons p ps => simp

theorem splitChar_length (sep : Char) (l : Chars) :
    (splitChar sep l).length = l.count sep + 1 := by
  induction l with
  | nil => simp [splitChar]
  | cons c rest ih =>
    simp only [splitChar]
    split
    next h =>
      subst h
      simp only [List.length_cons, ih, List.count_cons]
      simp
    next h =>
      cases hs : splitChar sep rest with
      | nil => exact absurd hs (splitChar_ne_nil sep rest)
      | cons p ps =>
        rw [hs] at ih
        simp only [List.length_cons] at ih ⊢
        simp only [List.count_cons]
        have hc : ¬(c == sep) = true := by simpa using h
        simp only [beq_iff_eq] at hc
        simp [hc]
        omega

/-- A field token whose payload has an extra colon splits into at least
three parts. -/
theorem splitColon_long (fn v : Chars) (h : ':' ∈ v) :
    3 ≤ (splitChar ':' (fn ++ ':' :: v)).length := by
  rw [splitChar_length]
  have h1 : 0 < v.count ':' := List.count_pos_iff.mpr h
  have h2 : (fn ++ ':' :: v).count ':' = fn.count ':' + (v.count ':' + 1) := by
    simp [List.count_append, List.count_cons]
  omega

/-- Both parsers skip a `Field` token whose payload does not split into
exactly two parts. -/
theorem stepP_skips_long_split (st : PSt) (val : Chars)
    (h : 3 ≤ (splitChar ':' val).length) : stepP st ⟨.tField, val⟩ = st := by
  rcases hs : splitChar ':' val with _ | ⟨x, _ | ⟨y, _ | ⟨z, tl⟩⟩⟩ <;>
    rw [hs] at h <;> simp at h
  all_goals simp [stepP, hs]

theorem stepM_skips_long_split (st : MSt) (val : Chars)
    (h : 3 ≤ (splitChar ':' val).length) : stepM st ⟨.tField, val⟩ = st := by
  rcases hs : splitChar ':' val with _ | ⟨x, _ | ⟨y, _ | ⟨z, tl⟩⟩⟩ <;>
    rw [hs] at h <;> simp at h
  all_goals simp [stepM, hs]

/-! ## Claims C1, C5, C6 (concrete parsing scenarios) -/

/-- C1 — counterexample.  Parsing
`("deep learning" OR "neural network") AND TITLE("survey")` does NOT yield
`And{ Or{Leaf(ANY,deep learning), Leaf(ANY,neural network)}, Leaf(TITLE,survey) }`:
inside the parenthesized group the first term is inserted under the default
`And` operator, so the group is a two-bucket node, not a pure `Or` node. -/
theorem c1_counterexample :
    processQueryP c1line ≠
      QResult.ok (Query.mk
        (QList.cons (Query.mk .nil (QList.cons (qleaf "ANY" "deep learning")
            (qone (qleaf "ANY" "neural network"))) .nil none)
          (qone (qleaf "TITLE" "survey")))
        .nil .nil none) := by decide

/-- C1 — amended.  The root is an `AND` node with two children: the closed
group (a two-bucket node whose `AND` bucket holds `Leaf(ANY,deep learning)`
and whose `OR` bucket holds `Leaf(ANY,neural network)`) and
`Leaf(TITLE,survey)`. -/
theorem c1_amended_thm :
    processQueryP c1line =
      QResult.ok (Query.mk
        (QList.cons
          (Query.mk (qone (qleaf "ANY" "deep learning"))
            (qone (qleaf "ANY" "neural network")) .nil none)
          (qone (qleaf "TITLE" "survey")))
        .nil .nil none) := by decide

/-- C5.  Parsing `TITLE-ABS-KEY("battery") AND NOT AUTHKEY("recycling")`
yields (in both copies) a single root node whose `AND` bucket holds the one
leaf `{TITLE-ABS-KEY, battery}` and whose `AND_NOT` bucket holds the one
leaf `{AUTHKEY, recycling}`, with an empty `OR` bucket and no leaf field;
the two-bucket node survives normalization (the returned tree IS the
normalized tree, and it is not collapsed). -/
theorem c5_and_not_scenario :
    processQueryP c5line = QResult.ok c5tree ∧
    processQueryM c5line = QResult.ok c5tree := by
  constructor <;> decide

/-- C6.  `TITLE("a") TITLE("b")` parses to an `AND` node with exactly the
two leaves `{TITLE,a}` and `{TITLE,b}`, and the tree equals the one parsed
from `TITLE("a") AND TITLE("b")` (shown for both copies of the pipeline). -/
theorem c6_implicit_and :
    processQueryP "TITLE(\"a\") TITLE(\"b\")" =
      QResult.ok (Query.mk (QList.cons (qleaf "TITLE" "a") (qone (qleaf "TITLE" "b"))) .nil .nil none) ∧
    processQueryP "TITLE(\"a\") AND TITLE(\"b\")" =
      QResult.ok (Query.mk (QList.cons (qleaf "TITLE" "a") (qone (qleaf "TITLE" "b"))) .nil .nil none) ∧
    processQueryM "TITLE(\"a\") TITLE(\"b\")" =
      QResult.ok (Query.mk (QList.cons (qleaf "TITLE" "a") (qone (qleaf "TITLE" "b"))) .nil .nil none) ∧
    processQueryM "TITLE(\"a\") AND TITLE(\"b\")" =
      QResult.ok (Query.mk (QList.cons (qleaf "TITLE" "a") (qone (qleaf "TITLE" "b"))) .nil .nil none) := by
  refine ⟨?_, ?_, ?_, ?_⟩ <;> decide

/-! ## Claim C2 (paren handling of the structural parser) -/

/-- C2.  In the parser of `src/unnamed/part_000` (the copy implementing the
spec's structural-parser design), consuming an `OpenParen` token pushes the
current group together with the operator value active before the
parenthesis and starts a new empty group whose insertion operator is reset
to `And`; consuming the matching `CloseParen` appends the normalized group
(if non-empty) into the parent's bucket selected by that saved operator
`po` — the right-hand side does not mention the operator `o` that was
current inside the group, so no operator set inside the group can affect
the attachment. -/
theorem c2_paren_saved_operator :
    ∀ (stk : List (Query × OpK)) (g : Query) (o : OpK) (v w : Chars)
      (pq : Query) (po : OpK) (rest : List (Query × OpK)),
      stepP ⟨stk, g, o⟩ ⟨.tOpen, v⟩ = ⟨(g, o) :: stk, emptyQ, .kAND⟩
      ∧ stepP ⟨(pq, po) :: rest, g, o⟩ ⟨.tClose, w⟩ =
          ⟨rest,
            (match cleanupQ g with
             | none => pq
             | some c => if isEmptyQ c then pq else attach pq po c),
            po⟩ := by
  intro stk g o v w pq po rest
  constructor
  · rfl
  · simp only [stepP]
    cases cleanupQ g with
    | none => rfl
    | some c => by_cases hc : isEmptyQ c <;> simp [hc]

/-! ## Claim C9 (processQuery error behavior) -/

/-- The shared shape of both `processQuery` bodies, characterized over an
arbitrary parse result. -/
theorem procQuery_spec (r : Option Query) :
    (procResult r = QResult.err emptyErr ↔ isEmptyO r = true)
    ∧ (∀ q, procResult r = QResult.ok q ↔ (r = some q ∧ isEmptyQ q = false))
    ∧ (∀ e, procResult r = QResult.err e → e = emptyErr) := by
  unfold procResult
  cases r with
  | none =>
    refine ⟨by simp [isEmptyO], fun q => ?_, fun e h => ?_⟩
    · constructor
      · intro h
        exact absurd h (by simp)
      · rintro ⟨h, -⟩
        exact absurd h (by simp)
    · cases h
      rfl
  | some q =>
    by_cases hq : isEmptyQ q = true
    · refine ⟨by simp [isEmptyO, hq], fun q2 => ?_, fun e h => ?_⟩
      · simp only [hq, if_true]
        constructor
        · intro h
          exact absurd h (by simp)
        · rintro ⟨h, hq2⟩
          cases h
          rw [hq] at hq2
          cases hq2
      · simp only [hq, if_true] at h
        cases h
        rfl
    · refine ⟨?_, fun q2 => ?_, fun e h => ?_⟩
      · simp only [hq, if_false, isEmptyO]
        constructor
        · intro h
          exact absurd h (by simp)
        · intro h
          exact absurd (by simpa [isEmptyO] using h) hq
      · simp only [hq, if_false]
        constructor
        · intro h
          cases h
          exact ⟨rfl, by simpa using hq⟩
        · rintro ⟨h, -⟩
          cases h
          rfl
      · simp only [hq, if_false] at h
        exact absurd h (by simp)

/-- C9.  For every raw line, each copy's `processQuery` returns the error
`"query parsed to empty structure"` exactly when its
tokenize→parse→normalize composition yields no node (a nil tree or an empty
tree); otherwise it returns the non-empty normalized tree; and no other
error message is ever produced.  (Returning a tree and an error at once is
excluded by the `QResult` type, mirroring the Go code's two exclusive
returns.) -/
theorem c9_processQuery_contract (s : String) :
    (processQueryP s = QResult.err emptyErr ↔ isEmptyO (parseTokensP (tokenizeP s)) = true)
    ∧ (∀ q, processQueryP s = QResult.ok q ↔
        (parseTokensP (tokenizeP s) = some q ∧ isEmptyQ q = false))
    ∧ (∀ e, processQueryP s = QResult.err e → e = emptyErr)
    ∧ (processQueryM s = QResult.err emptyErr ↔ isEmptyO (parseTokensM (tokenizeM s)) = true)
    ∧ (∀ q, processQueryM s = QResult.ok q ↔
        (parseTokensM (tokenizeM s) = some q ∧ isEmptyQ q = false))
    ∧ (∀ e, processQueryM s = QResult.err e → e = emptyErr) := by
  simp only [processQueryP, processQueryM]
  obtain ⟨h1, h2, h3⟩ := procQuery_spec (parseTokensP (tokenizeP s))
  obtain ⟨h4, h5, h6⟩ := procQuery_spec (parseTokensM (tokenizeM s))
  exact ⟨h1, h2, h3, h4, h5, h6⟩

/-- C9 — witness: on the blank line the pipelines yield no node, and
applying the contract produces the error result. -/
theorem c9_witness :
    processQueryP "" = QResult.err emptyErr ∧ processQueryM "" = QResult.err emptyErr :=
  ⟨(c9_processQuery_contract "").1.mpr (by decide),
   (c9_processQuery_contract "").2.2.2.1.mpr (by decide)⟩

/-! ## Claim C10 (colon inside a quoted value) -/

/-- C10.  A field-function (or bare-quoted) term whose quoted value contains
a colon is tokenized — `TITLE("a:b")` yields the one `Field` token with
payload `TITLE:a:b` — but both parsers silently drop any `Field` token whose
payload has an extra colon (the `strings.Split` on `":"` yields at least
three parts instead of exactly two), so the term never reaches the tree:
the full pipeline reduces `TITLE("a:b")` to the empty-result error in both
copies. -/
theorem c10_colon_value_dropped (st : PSt) (stM : MSt) (fn v : Chars)
    (h : ':' ∈ v) :
    tokenizeP "TITLE(\"a:b\")" = [⟨.tField, "TITLE:a:b".data⟩]
    ∧ stepP st ⟨.tField, fn ++ ':' :: v⟩ = st
    ∧ stepM stM ⟨.tField, fn ++ ':' :: v⟩ = stM
    ∧ processQueryP "TITLE(\"a:b\")" = QResult.err emptyErr
    ∧ processQueryM "TITLE(\"a:b\")" = QResult.err emptyErr :=
  ⟨by decide,
   stepP_skips_long_split st _ (splitColon_long fn v h),
   stepM_skips_long_split stM _ (splitColon_long fn v h),
   by decide, by decide⟩

/-- C10 — witness at the concrete payload `ANY:a:b`. -/
theorem c10_witness :
    (':' ∈ "a:b".data)
    ∧ stepP pInit ⟨.tField, "ANY".data ++ ':' :: "a:b".data⟩ = pInit :=
  ⟨by decide, (c10_colon_value_dropped pInit mInit "ANY".data "a:b".data (by decide)).2.1⟩

/-! ## Claim C7 (paren auto-balancing) -/

/-- Appending exactly the deficit of `)` characters commutes with the
tokenizer's balancing step: the balanced string is the same. -/
theorem balance_append_closes (cs : Chars) (h : cs.count ')' < cs.count '(') :
    balanceParens (cs ++ List.replicate (cs.count '(' - cs.count ')') ')') = balanceParens cs := by
  unfold balanceParens
  have h1 : (cs ++ List.replicate (cs.count '(' - cs.count ')') ')').count '(' = cs.count '(' := by
    simp [List.count_append, List.count_replicate]
  have h2 : (cs ++ List.replicate (cs.count '(' - cs.count ')') ')').count ')'
      = cs.count ')' + (cs.count '(' - cs.count ')') := by
    simp [List.count_append, List.count_replicate]
  rw [h1, h2, if_neg (by omega), if_pos h]

/-- C7.  A line with `k` more `(` than `)` runs the whole pipeline to the
same result as the same line with `k` literal `)` appended, in both copies:
the tokenizer's own preprocessing appends exactly those `k` closers, after
which the two inputs coincide. -/
theorem c7_paren_autobalance (s : String) (h : s.data.count ')' < s.data.count '(') :
    processQueryP (s ++ String.mk (List.replicate (s.data.count '(' - s.data.count ')') ')'))
      = processQueryP s
    ∧ processQueryM (s ++ String.mk (List.replicate (s.data.count '(' - s.data.count ')') ')'))
      = processQueryM s := by
  have hdata : (s ++ String.mk (List.replicate (s.data.count '(' - s.data.count ')') ')')).data
      = s.data ++ List.replicate (s.data.count '(' - s.data.count ')') ')' := by
    rw [String.data_append]
  have hbal := balance_append_closes s.data h
  constructor <;>
    simp only [processQueryP, processQueryM, tokenizeP, tokenizeM, tokenizeWith, preprocess,
      hdata, hbal]

/-- C7 — witness at the unbalanced line `TITLE("a`…: one more `(` than `)`. -/
theorem c7_witness :
    ("TITLE(\"a\"".data.count ')' < "TITLE(\"a\"".data.count '(')
    ∧ processQueryP ("TITLE(\"a\"" ++ String.mk (List.replicate
        ("TITLE(\"a\"".data.count '(' - "TITLE(\"a\"".data.count ')') ')'))
      = processQueryP "TITLE(\"a\"" :=
  ⟨by decide, (c7_paren_autobalance "TITLE(\"a\"" (by decide)).1⟩

/-! ## Size and fuel lemmas for the collapsing normalizer -/

theorem qsize_pos (q : Query) : 1 ≤ qsize q := by
  cases q with
  | mk a o n f => simp [qsize]; omega

theorem qlsize_cons (q : Query) (qs : QList) : qlsize (.cons q qs) = qsize q + qlsize qs := by
  simp [qlsize]

theorem qsize_mk (a o n : QList) (f : Option Fld) :
    qsize (.mk a o n f) = 1 + qlsize a + qlsize o + qlsize n := by
  simp [qsize]

/-- Induction over the spine of a `QList` (the mutual recursor needs a
trivial motive on `Query`). -/
theorem qlist_ind (motive : QList → Prop) (hnil : motive .nil)
    (hcons : ∀ q qs, motive qs → motive (.cons q qs)) : ∀ L, motive L :=
  @QList.rec (fun _ => True) motive (fun _ _ _ _ _ _ _ => trivial) hnil
    (fun q qs _ hqs => hcons q qs hqs)

theorem qlsize_filterMap_le (f : Query → Option Query)
    (hf : ∀ q r, f q = some r → qsize r ≤ qsize q) :
    ∀ L, qlsize (qfilterMap f L) ≤ qlsize L := by
  refine qlist_ind _ (by simp [qfilterMap]) ?_
  intro q qs ih
  cases hq : f q with
  | none =>
    simp only [qfilterMap, hq]
    rw [qlsize_cons]
    have := qsize_pos q
    omega
  | some c =>
    simp only [qfilterMap, hq]
    have := hf q c hq
    rw [qlsize_cons, qlsize_cons]
    omega

theorem qfilterMap_congrB (f g : Query → Option Query) :
    ∀ L, (∀ q, qsize q ≤ qlsize L → f q = g q) → qfilterMap f L = qfilterMap g L := by
  refine qlist_ind _ (fun _ => rfl) ?_
  intro q qs ih h
  have hq : f q = g q := by
    refine h q ?_
    rw [qlsize_cons]
    omega
  have ht : qfilterMap f qs = qfilterMap g qs := by
    refine ih (fun q' hq' => h q' ?_)
    rw [qlsize_cons]
    have := qsize_pos q
    omega
  simp only [qfilterMap, hq, ht]

/-- `cleanupCore` never grows the tree, provided its recursive argument
does not. -/
theorem cleanupCore_size (rec : Query → Option Query)
    (hrec : ∀ q r, rec q = some r → qsize r ≤ qsize q) :
    ∀ q r, cleanupCore rec q = some r → qsize r ≤ qsize q := by
  intro q r h
  cases q with
  | mk A O N F =>
    have hA := qlsize_filterMap_le rec hrec A
    have hO := qlsize_filterMap_le rec hrec O
    have hN := qlsize_filterMap_le rec hrec N
    rw [qsize_mk]
    simp only [cleanupCore] at h
    split at h
    · exact absurd h (by simp)
    · have h0 : qlsize QList.nil = 0 := rfl
      split at h
      all_goals first
      | (cases h
         rw [qsize_mk]
         omega)
      | (rename_i eA eO eN eMt
         have hx := hrec _ _ h
         rw [eA] at hA
         rw [eO] at hO
         rw [eN] at hN
         simp only [qlsize_cons] at hA hO hN
         omega)

/-- The collapsing normalizer never grows the tree. -/
theorem cleanupF_size : ∀ n q r, cleanupF n q = some r → qsize r ≤ qsize q := by
  intro n
  induction n with
  | zero => intro q r h; simp [cleanupF] at h
  | succ n ih =>
    intro q r h
    exact cleanupCore_size (cleanupF n) ih q r h

/-- Congruence for the normalizer body: two recursive arguments that agree
up to the size of the buckets give the same result. -/
theorem cleanupCore_congr (f g : Query → Option Query) (A O N : QList) (F : Option Fld)
    (hgsize : ∀ q r, g q = some r → qsize r ≤ qsize q)
    (hbnd : ∀ q, qsize q ≤ qlsize A + qlsize O + qlsize N → f q = g q) :
    cleanupCore f (.mk A O N F) = cleanupCore g (.mk A O N F) := by
  have hA : qfilterMap f A = qfilterMap g A :=
    qfilterMap_congrB f g A (fun q hq => hbnd q (by omega))
  have hO : qfilterMap f O = qfilterMap g O :=
    qfilterMap_congrB f g O (fun q hq => hbnd q (by omega))
  have hN : qfilterMap f N = qfilterMap g N :=
    qfilterMap_congrB f g N (fun q hq => hbnd q (by omega))
  have hlA := qlsize_filterMap_le g hgsize A
  have hlO := qlsize_filterMap_le g hgsize O
  have hlN := qlsize_filterMap_le g hgsize N
  have h0 : qlsize QList.nil = 0 := rfl
  simp only [cleanupCore, hA, hO, hN]
  by_cases hE : isEmptyQ (.mk (qfilterMap g A) (qfilterMap g O) (qfilterMap g N) F) = true
  · simp only [if_pos hE]
  · simp only [if_neg hE]
    split
    all_goals first
    | rfl
    | (rename_i eA eO eN
       rw [eA] at hlA
       rw [eO] at hlO
       rw [eN] at hlN
       simp only [qlsize_cons] at hlA hlO hlN
       refine hbnd _ ?_
       omega)

/-- Fuel irrelevance: any fuel at least the size of the tree computes the
same normalization. -/
theorem cleanupF_fuel : ∀ K n m q, qsize q ≤ K → qsize q ≤ n → qsize q ≤ m →
    cleanupF n q = cleanupF m q := by
  intro K
  induction K with
  | zero =>
    intro n m q hK _ _
    have := qsize_pos q
    omega
  | succ K ih =>
    intro n m q hK hn hm
    have hq1 := qsize_pos q
    cases n with
    | zero => omega
    | succ n' =>
      cases m with
      | zero => omega
      | succ m' =>
        cases q with
        | mk A O N F =>
          simp only [cleanupF]
          rw [qsize_mk] at hK hn hm
          refine cleanupCore_congr _ _ A O N F (cleanupF_size m') ?_
          intro q' hq'
          exact ih n' m' q' (by omega) (by omega) (by omega)

theorem cleanupQ_size (q r : Query) (h : cleanupQ q = some r) : qsize r ≤ qsize q :=
  cleanupF_size _ _ _ h

theorem cleanupF_eq_cleanupQ (n : Nat) (q : Query) (h : qsize q ≤ n) :
    cleanupF n q = cleanupQ q :=
  cleanupF_fuel n n (qsize q) q h h le_rfl

/-- The natural unfolding of the Go `cleanupQuery` of `src/unnamed/part_000`:
the fuel embedding satisfies the intended recursive equation. -/
theorem cleanupQ_mk (A O N : QList) (F : Option Fld) :
    cleanupQ (.mk A O N F) = cleanupCore cleanupQ (.mk A O N F) := by
  show cleanupF (qsize (.mk A O N F)) (.mk A O N F) = _
  rw [qsize_mk]
  have h1 : 1 + qlsize A + qlsize O + qlsize N
      = Nat.succ (qlsize A + qlsize O + qlsize N) := by omega
  rw [h1]
  simp only [cleanupF]
  refine cleanupCore_congr _ _ A O N F (fun q r h => cleanupQ_size q r h) ?_
  intro q hq
  exact cleanupF_eq_cleanupQ _ _ (by omega)

/-- A node that matches none of the three singleton patterns does not have
the singleton-wrapper shape. -/
theorem isSingleShape_eq_false (a o m : QList) (F : Option Fld)
    (h1 : ∀ x, a = QList.cons x QList.nil → o = QList.nil → m = QList.nil → F = none → False)
    (h2 : ∀ x, a = QList.nil → o = QList.cons x QList.nil → m = QList.nil → F = none → False)
    (h3 : ∀ x, a = QList.nil → o = QList.nil → m = QList.cons x QList.nil → F = none → False) :
    isSingleShape (.mk a o m F) = false := by
  cases hs : isSingleShape (.mk a o m F)
  · rfl
  · exfalso
    unfold isSingleShape at hs
    split at hs
    · rename_i x heq
      injection heq with e1 e2 e3 e4
      exact h1 x e1 e2 e3 e4
    · rename_i x heq
      injection heq with e1 e2 e3 e4
      exact h2 x e1 e2 e3 e4
    · rename_i x heq
      injection heq with e1 e2 e3 e4
      exact h3 x e1 e2 e3 e4
    · exact absurd hs (by simp)

/-- C3 core: every output of the collapsing normalizer contains no
singleton-wrapper node, at any depth. -/
theorem cleanup_noSingle : ∀ K q r, qsize q ≤ K → cleanupQ q = some r → noSingle r = true := by
  intro K
  induction K with
  | zero =>
    intro q r hK h
    exact absurd hK (by have := qsize_pos q; omega)
  | succ K ih =>
    intro q r hK h
    cases q with
    | mk A O N F =>
      rw [qsize_mk] at hK
      have hlA := qlsize_filterMap_le cleanupQ cleanupQ_size A
      have hlO := qlsize_filterMap_le cleanupQ cleanupQ_size O
      have hlN := qlsize_filterMap_le cleanupQ cleanupQ_size N
      have h0 : qlsize QList.nil = 0 := rfl
      have hLs : ∀ L, qlsize L ≤ K → noSingleL (qfilterMap cleanupQ L) = true := by
        refine qlist_ind _ (fun _ => rfl) ?_
        intro q qs ihl hb
        rw [qlsize_cons] at hb
        have hq1 := qsize_pos q
        cases hq : cleanupQ q with
        | none =>
          simp only [qfilterMap, hq]
          exact ihl (by omega)
        | some c =>
          simp only [qfilterMap, hq]
          simp only [noSingleL]
          rw [ih q c (by omega) hq, ihl (by omega)]
          rfl
      rw [cleanupQ_mk] at h
      simp only [cleanupCore] at h
      split at h
      · exact absurd h (by simp)
      · split at h
        all_goals first
        | (rename_i eA eO eN hne
           rw [eA] at hlA
           rw [eO] at hlO
           rw [eN] at hlN
           simp only [qlsize_cons] at hlA hlO hlN
           exact ih _ _ (by omega) h)
        | (rename_i hn1 hn2 hn3 hne
           cases h
           have hsh := isSingleShape_eq_false _ _ _ _ hn1 hn2 hn3
           simp only [noSingle, hsh, hLs A (by omega), hLs O (by omega), hLs N (by omega)]
           rfl)

/-- C8 core: the collapsing normalizer is idempotent on its outputs. -/
theorem cleanup_idem : ∀ K q r, qsize q ≤ K → cleanupQ q = some r → cleanupQ r = some r := by
  intro K
  induction K with
  | zero =>
    intro q r hK h
    exact absurd hK (by have := qsize_pos q; omega)
  | succ K ih =>
    intro q r hK h
    cases q with
    | mk A O N F =>
      rw [qsize_mk] at hK
      have hlA := qlsize_filterMap_le cleanupQ cleanupQ_size A
      have hlO := qlsize_filterMap_le cleanupQ cleanupQ_size O
      have hlN := qlsize_filterMap_le cleanupQ cleanupQ_size N
      have h0 : qlsize QList.nil = 0 := rfl
      have hself : ∀ L, qlsize L ≤ K →
          qfilterMap cleanupQ (qfilterMap cleanupQ L) = qfilterMap cleanupQ L := by
        refine qlist_ind _ (fun _ => rfl) ?_
        intro q qs ihl hb
        rw [qlsize_cons] at hb
        have hq1 := qsize_pos q
        cases hq : cleanupQ q with
        | none =>
          simp only [qfilterMap, hq]
          exact ihl (by omega)
        | some c =>
          have hc : cleanupQ c = some c := ih q c (by omega) hq
          simp only [qfilterMap, hq, hc]
          rw [ihl (by omega)]
      rw [cleanupQ_mk] at h
      simp only [cleanupCore] at h
      split at h
      · exact absurd h (by simp)
      · split at h
        all_goals first
        | (rename_i eA eO eN hne
           rw [eA] at hlA
           rw [eO] at hlO
           rw [eN] at hlN
           simp only [qlsize_cons] at hlA hlO hlN
           exact ih _ _ (by omega) h)
        | (rename_i hn1 hn2 hn3 hne
           cases h
           rw [cleanupQ_mk]
           simp only [cleanupCore]
           rw [hself A (by omega), hself O (by omega), hself N (by omega)]
           rw [if_neg hne]
           split
           · rename_i x eA eO eN
             exact (hn1 x eA eO eN rfl).elim
           · rename_i x eA eO eN
             exact (hn2 x eA eO eN rfl).elim
           · rename_i x eA eO eN
             exact (hn3 x eA eO eN rfl).elim
           · rfl)

/-! ## Claims C3 and C8 (normalizer invariants) -/

/-- C3.  For every input tree, the tree produced by the collapsing
normalizer (`cleanupQuery` of `src/unnamed/part_000`, the copy implementing
the spec's normalizer) has no node with exactly one non-empty bucket of
size 1, the other two buckets empty and no leaf field — singleton wrappers
are collapsed at every depth. -/
theorem c3_no_singleton_wrappers (q r : Query) (h : cleanupQ q = some r) :
    noSingle r = true :=
  cleanup_noSingle (qsize q) q r le_rfl h

/-- C3 — witness: normalizing a singleton `AND` wrapper yields its sole
leaf, which contains no singleton wrapper. -/
theorem c3_witness :
    cleanupQ (Query.mk (qone (qleaf "TITLE" "a")) .nil .nil none) = some (qleaf "TITLE" "a")
    ∧ noSingle (qleaf "TITLE" "a") = true :=
  ⟨by decide, c3_no_singleton_wrappers (Query.mk (qone (qleaf "TITLE" "a")) .nil .nil none)
    (qleaf "TITLE" "a") (by decide)⟩

/-- C8.  The normalizer (`cleanupQuery` of `src/unnamed/part_000`, the copy
implementing the spec's normalizer) is idempotent as a map on optional
trees: `normalize (normalize t) = normalize t`, including the case where
normalization yields the absent result. -/
theorem c8_normalize_idempotent (t : Option Query) :
    cleanupO (cleanupO t) = cleanupO t := by
  cases t with
  | none => rfl
  | some q =>
    show cleanupO (cleanupQ q) = cleanupQ q
    cases h : cleanupQ q with
    | none => rfl
    | some r => exact cleanup_idem (qsize q) q r le_rfl h

/-! ## Claim C4 (the two pipeline copies) -/

/-- C4 — counterexample.  The two copies of the pipeline do not produce the
same result on every line: on the line `"a"` the `src/unnamed/part_000`
pipeline returns the bare leaf `{ANY, a}` (its normalizer collapses the
singleton `AND` wrapper) while the `src/main.go` pipeline returns the
wrapper `{AND: [{ANY, a}]}` (its normalizer has no singleton collapse). -/
theorem c4_counterexample :
    processQueryP "\"a\"" = QResult.ok (qleaf "ANY" "a")
    ∧ processQueryM "\"a\"" = QResult.ok (Query.mk (qone (qleaf "ANY" "a")) .nil .nil none)
    ∧ processQueryP "\"a\"" ≠ processQueryM "\"a\"" := by
  refine ⟨?_, ?_, ?_⟩ <;> decide

/-! ## Agreement of the two tokenizers on backslash-free lines -/

/-- A successful field-function match has a non-empty, quote-free value
drawn from the input, and its rest is drawn from the input. -/
theorem pFieldFn_sub (fnc cs v rest : Chars) (h : pFieldFn fnc cs = some (v, rest)) :
    v ≠ [] ∧ (∀ c ∈ v, c ∈ cs ∧ c ≠ '"') ∧ (∀ c ∈ rest, c ∈ cs) := by
  unfold pFieldFn at h
  split at h
  case isFalse => exact absurd h (by simp)
  case isTrue hpre =>
    split at h
    case h_2 => exact absurd h (by simp)
    case h_1 cs2 cs3 heq =>
      have hcs3 : ∀ c ∈ cs3, c ∈ cs := by
        intro c hc
        have h1 : c ∈ (cs.drop fnc.length).dropWhile isReSpace := by
          rw [heq]
          exact List.mem_cons_of_mem _ (List.mem_cons_of_mem _ hc)
        have h2 : c ∈ cs.drop fnc.length :=
          (List.dropWhile_suffix isReSpace).subset h1
        exact List.drop_subset _ _ h2
      split at h
      case h_2 => exact absurd h (by simp)
      case h_1 c0 v1 r0 heqv heqr =>
        cases h
        refine ⟨by simp, fun c hc => ?_, fun c hc => ?_⟩
        · rw [← heqv] at hc
          have h1 : c ∈ cs3.takeWhile (fun c => decide (c ≠ '"')) := hc
          refine ⟨hcs3 c ((cs3.takeWhile_sublist _).subset h1), ?_⟩
          have := List.mem_takeWhile_imp h1
          simpa using this
        · have h1 : c ∈ cs3.drop (cs3.takeWhile (fun c => decide (c ≠ '"'))).length := by
            rw [heqr]
            exact List.mem_cons_of_mem _ (List.mem_cons_of_mem _ hc)
          exact hcs3 c (List.drop_subset _ _ h1)

theorem pField_sub (cs : Chars) (fn : FName) (v rest : Chars)
    (h : pField cs = some (fn, v, rest)) :
    v ≠ [] ∧ (∀ c ∈ v, c ∈ cs ∧ c ≠ '"') ∧ (∀ c ∈ rest, c ∈ cs) := by
  unfold pField at h
  split at h
  · cases h
    exact pFieldFn_sub _ _ _ _ (by assumption)
  · split at h
    · cases h
      exact pFieldFn_sub _ _ _ _ (by assumption)
    · split at h
      · cases h
        exact pFieldFn_sub _ _ _ _ (by assumption)
      · split at h
        · cases h
          exact pFieldFn_sub _ _ _ _ (by assumption)
        · exact absurd h (by simp)

theorem tryAlts_sub (cs : Chars) (rm : RawMatch) (rest : Chars)
    (h : tryAlts cs = some (rm, rest)) :
    (∀ c ∈ rest, c ∈ cs)
    ∧ (∀ fn v, rm = .rfield fn v → v ≠ [] ∧ ∀ c ∈ v, c ∈ cs ∧ c ≠ '"') := by
  unfold tryAlts at h
  split at h
  case h_1 fn v r heq =>
    cases h
    have := pField_sub cs fn v rest heq
    exact ⟨this.2.2, fun fn' v' hv => by
      cases hv
      exact ⟨this.1, this.2.1⟩⟩
  case h_2 =>
    split at h
    · cases h
      exact ⟨fun c hc => List.drop_subset _ _ hc, fun fn v hv => by cases hv⟩
    · split at h
      · cases h
        exact ⟨fun c hc => List.drop_subset _ _ hc, fun fn v hv => by cases hv⟩
      · split at h
        · cases h
          exact ⟨fun c hc => List.drop_subset _ _ hc, fun fn v hv => by cases hv⟩
        · split at h
          case h_1 r =>
            cases h
            exact ⟨fun c hc => List.mem_cons_of_mem _ hc, fun fn v hv => by cases hv⟩
          case h_2 r =>
            cases h
            exact ⟨fun c hc => List.mem_cons_of_mem _ hc, fun fn v hv => by cases hv⟩
          case h_3 =>
            rename_i r hpf nOR nNOT nAND
            split at h
            case h_1 c0 v1 r2 heqv heqr =>
              cases h
              refine ⟨fun c hc => ?_, fun fn v hv => by cases hv⟩
              have h1 : c ∈ r.drop (r.takeWhile (fun c => decide (c ≠ '"'))).length := by
                rw [heqr]
                exact List.mem_cons_of_mem _ hc
              exact List.mem_cons_of_mem _ (List.drop_subset _ _ h1)
            case h_2 =>
              exact absurd h (by simp)
          case h_4 =>
            exact absurd h (by simp)

theorem findMatch_sub : ∀ (cs : Chars) (g : Chars) (rm : RawMatch) (rest : Chars),
    findMatch cs = some (g, rm, rest) →
    (∀ c ∈ rest, c ∈ cs)
    ∧ (∀ fn v, rm = .rfield fn v → v ≠ [] ∧ ∀ c ∈ v, c ∈ cs ∧ c ≠ '"') := by
  intro cs
  induction cs with
  | nil =>
    intro g rm rest h
    unfold findMatch at h
    split at h
    · rename_i rm0 rest0 heq
      cases h
      exact tryAlts_sub _ _ _ heq
    · exact absurd h (by simp)
  | cons c cs' ih =>
    intro g rm rest h
    unfold findMatch at h
    split at h
    · rename_i rm0 rest0 heq
      cases h
      exact tryAlts_sub _ _ _ heq
    · split at h
      · rename_i hta g0 rm0 rest0 heq
        obtain ⟨h1, h2⟩ := ih g0 rm0 rest0 heq
        cases h
        exact ⟨fun c' hc => List.mem_cons_of_mem _ (h1 c' hc),
          fun fn v hv => ⟨(h2 fn v hv).1,
            fun c' hc => ⟨List.mem_cons_of_mem _ ((h2 fn v hv).2 c' hc).1,
              ((h2 fn v hv).2 c' hc).2⟩⟩⟩
      · exact absurd h (by simp)

theorem scanFromF_vals : ∀ (fuel : Nat) (cs : Chars) (g : Chars) (fn : FName) (v : Chars),
    (g, RawMatch.rfield fn v) ∈ scanFromF fuel cs →
    v ≠ [] ∧ ∀ c ∈ v, c ∈ cs ∧ c ≠ '"' := by
  intro fuel
  induction fuel with
  | zero =>
    intro cs g fn v h
    simp [scanFromF] at h
  | succ n ih =>
    intro cs g fn v h
    unfold scanFromF at h
    split at h
    · simp at h
    · rename_i g0 rm0 rest0 heq
      rcases List.mem_cons.mp h with h1 | h1
      · have := (findMatch_sub cs g0 rm0 rest0 heq).2
        injection h1 with e1 e2
        exact this fn v e2.symm
      · obtain ⟨hv1, hv2⟩ := ih rest0 g fn v h1
        exact ⟨hv1, fun c hc =>
          ⟨(findMatch_sub cs g0 rm0 rest0 heq).1 c (hv2 c hc).1, (hv2 c hc).2⟩⟩

theorem buildToks_congr (f g : Chars → Bool) :
    ∀ (entries : List (Chars × RawMatch)) (acc : List Token),
    (∀ gp rm, (gp, rm) ∈ entries → mkToken f rm = mkToken g rm) →
    buildToks f entries acc = buildToks g entries acc := by
  intro entries
  induction entries with
  | nil => intro acc _; rfl
  | cons e rest ih =>
    intro acc hmk
    obtain ⟨gp, rm⟩ := e
    have he : mkToken f rm = mkToken g rm := hmk gp rm (List.mem_cons_self _ _)
    simp only [buildToks, he]
    cases mkToken g rm with
    | none => exact ih acc (fun gp' rm' hm => hmk gp' rm' (List.mem_cons_of_mem _ hm))
    | some tk => exact ih _ (fun gp' rm' hm => hmk gp' rm' (List.mem_cons_of_mem _ hm))

theorem pOkAux_true (v : Chars) (h : ∀ c ∈ v, c ≠ '"' ∧ c ≠ '\\') : pOkAux v = true := by
  induction v with
  | nil => rfl
  | cons c rest ih =>
    have hc := h c (List.mem_cons_self _ _)
    unfold pOkAux
    rw [if_neg hc.2, if_neg hc.1]
    exact ih (fun c' hc' => h c' (List.mem_cons_of_mem _ hc'))

theorem pOk_true (v : Chars) (hne : v ≠ []) (h : ∀ c ∈ v, c ≠ '"' ∧ c ≠ '\\') :
    pOk v = true := by
  unfold pOk
  rw [pOkAux_true v h]
  cases v with
  | nil => exact absurd rfl hne
  | cons c rest => rfl

theorem replF_mem (pat rep : Chars) :
    ∀ (n : Nat) (cs : Chars) (c : Char), c ∈ replF pat rep n cs → c ∈ cs ∨ c ∈ rep := by
  intro n
  induction n with
  | zero => intro cs c h; exact Or.inl h
  | succ n ih =>
    intro cs c h
    unfold replF at h
    split at h
    · simp at h
    · rename_i c0 cs0
      split at h
      · rcases List.mem_append.mp h with h1 | h1
        · exact Or.inr h1
        · rcases ih _ c h1 with h2 | h2
          · exact Or.inl (List.drop_subset _ _ h2)
          · exact Or.inr h2
      · rcases List.mem_cons.mp h with h1 | h1
        · exact Or.inl (h1 ▸ List.mem_cons_self _ _)
        · rcases ih _ c h1 with h2 | h2
          · exact Or.inl (List.mem_cons_of_mem _ h2)
          · exact Or.inr h2

theorem replAll_mem (p : Char) (ps rep cs : Chars) (c : Char)
    (h : c ∈ replAll p ps rep cs) : c ∈ cs ∨ c ∈ rep :=
  replF_mem (p :: ps) rep cs.length cs c h

theorem balanceParens_mem (cs : Chars) (c : Char) (h : c ∈ balanceParens cs) :
    c ∈ cs ∨ c = ')' := by
  unfold balanceParens at h
  split at h
  · rcases List.mem_append.mp h with h1 | h1
    · exact Or.inl h1
    · exact Or.inr (List.eq_of_mem_replicate h1)
  · exact Or.inl h

/-- Preprocessing introduces no backslash. -/
theorem preprocess_no_bs (cs : Chars) (h : '\\' ∉ cs) : '\\' ∉ preprocess cs := by
  intro hmem
  unfold preprocess at hmem
  rcases replAll_mem _ _ _ _ _ hmem with h1 | h1
  case inr => simp at h1
  rcases replAll_mem _ _ _ _ _ h1 with h2 | h2
  case inr => simp at h2
  rcases replAll_mem _ _ _ _ _ h2 with h3 | h3
  case inr => simp at h3
  rcases replAll_mem _ _ _ _ _ h3 with h4 | h4
  case inr => simp at h4
  rcases replAll_mem _ _ _ _ _ h4 with h5 | h5
  case inr => simp at h5
  rcases balanceParens_mem _ _ h5 with h6 | h6
  · exact h h6
  · simp at h6

/-- C4 — amended.  The two copies' tokenizers agree on every line without a
backslash character (their only difference is the inner field regex of
`src/unnamed/part_000`, `((?:[^"\\]|\\.)+)`, which on a backslash-free,
non-empty, quote-free captured value always succeeds, just like
`src/main.go`'s `([^"]+)`).  The parsers and normalizers of the two copies
genuinely differ (no operator saving across parentheses and no singleton
collapse in `src/main.go`), so the full pipelines disagree on some lines —
see the counterexample. -/
theorem c4_amended_tokenizers_agree (s : String) (h : '\\' ∉ s.data) :
    tokenizeM s = tokenizeP s := by
  unfold tokenizeM tokenizeP tokenizeWith
  refine buildToks_congr mainOk pOk _ _ ?_
  intro gp rm hmem
  cases rm with
  | rfield fn v =>
    have hv := scanFromF_vals (preprocess s.data).length (preprocess s.data) gp fn v hmem
    have hbs := preprocess_no_bs s.data h
    have hok : pOk v = true := by
      refine pOk_true v hv.1 (fun c hc => ⟨(hv.2 c hc).2, fun e => hbs (e ▸ (hv.2 c hc).1)⟩)
    simp [mkToken, hok, mainOk]
  | rOR => rfl
  | rANDNOT => rfl
  | rAND => rfl
  | rOpen => rfl
  | rClose => rfl
  | rquoted v => rfl

/-- C4 — witness: the example line of C1 contains no backslash, and the two
tokenizers produce the same token list on it. -/
theorem c4_witness :
    ('\\' ∉ c1line.data) ∧ tokenizeM c1line = tokenizeP c1line :=
  ⟨by decide, c4_amended_tokenizers_agree c1line (by decide)⟩
